import Mathlib

/-
Verification of the Document Crawling & Incremental Index Engine of the
personal-knowledge MCP server.  JavaScript strings are modelled as lists of
characters (`Str`); SQLite tables are modelled as lists of rows; fallible
operations return `Except Unit`.  Each definition is a shallow embedding of
the correspondingly named function of the TypeScript source.
-/

namespace PK

/-- JavaScript strings, modelled as lists of characters. -/
abbrev Str := List Char

/-- ASCII part of the JavaScript whitespace class (used by both the regex
class given by a backslash-s and by String.prototype.trim for the inputs
of this development). -/
def isWs (c : Char) : Bool :=
  c = ' ' ∨ c = '\t' ∨ c = '\n' ∨ c = '\r' ∨ c = '\x0b' ∨ c = '\x0c'

/-- JavaScript String.prototype.trim: strip whitespace from both ends. -/
def jsTrim (s : Str) : Str :=
  ((s.dropWhile isWs).reverse.dropWhile isWs).reverse

/-! ## FileParser / LocalCrawler text layer -/

/-- The truncation marker appended by LocalCrawler.truncateContent. -/
def truncMarker : Str := ("\n\n... (内容已截断)").data

/-- LocalCrawler.truncateContent: cap content at 100000 characters, appending
the truncation marker when the cap is exceeded. -/
def truncateContent (content : Str) : Str :=
  if 100000 < content.length then content.take 100000 ++ truncMarker
  else content

/-- The part of a path after its final slash (Node path.basename for the
slash-free tails occurring here). -/
def baseName (p : Str) : Str :=
  (p.reverse.takeWhile (fun c => c ≠ '/')).reverse

/-- Node path.extname: the suffix of the basename starting at its last dot,
empty when there is no dot or the only dot is the leading character.
(Basenames consisting purely of dots are approximated; no crawled file has
such a name.) -/
def extname (p : Str) : Str :=
  let b := baseName p
  let t := b.reverse.takeWhile (fun c => c ≠ '.')
  if t.length + 1 < b.length then b.drop (b.length - t.length - 1) else []

/-- Node path.basename(p, path.extname(p)) as used by FileParser.extractTitle:
the basename with its extension stripped (Node keeps the name when it equals
the extension itself). -/
def fileNameOf (p : Str) : Str :=
  let b := baseName p
  let e := extname p
  if b ≠ e ∧ e.isSuffixOf b then b.take (b.length - e.length) else b

/-- Backtracking step of the markdown heading regex: after the literal hash,
the whitespace-plus atom gives back characters one at a time (starting from
its maximal run, whose length is the second argument) until the dot-plus atom
finds a first character that is not a newline.  Returns the chosen run
length. -/
def pickGap (cs : Str) : Nat → Option Nat
  | 0 => none
  | k + 1 =>
    match (cs.drop (k + 1)).head? with
    | some c => if c = '\n' then pickGap cs k else some (k + 1)
    | none => pickGap cs k

/-- One attempt of the regex in FileParser.extractTitle (hash, one or more
whitespace, then a captured run of one or more non-newline characters ending
at a line end) at a fixed position.  Returns the capture group. -/
def headingAt : Str → Option Str
  | '#' :: rest =>
    match pickGap rest (rest.takeWhile isWs).length with
    | some k => some ((rest.drop k).takeWhile (fun c => c ≠ '\n'))
    | none => none
  | _ => none

/-- Multiline regex scan: try `headingAt` at every line-start position from
left to right, as content.match does for a caret-anchored pattern with the
multiline flag. -/
def scanFrom : Str → Bool → Option Str
  | [], _ => none
  | c :: rest, atStart =>
    match (if atStart then headingAt (c :: rest) else none) with
    | some t => some t
    | none => scanFrom rest (c == '\n')

/-- First match of the level-1 heading regex over the whole content. -/
def mdHeading (content : Str) : Option Str := scanFrom content true

/-- The suffixes of the content that begin at a line start, in left-to-right
order (an alternative presentation of the multiline scan positions). -/
def lineSuffixes : Str → Bool → List Str
  | [], _ => []
  | c :: rest, atStart =>
    if atStart then (c :: rest) :: lineSuffixes rest (c == '\n')
    else lineSuffixes rest (c == '\n')

def mdExt : Str := (".md").data

def pptxExt : Str := (".pptx").data

/-- FileParser.extractTitle: filename without extension by default; for an
exact `.md` extension the first regex heading match (trimmed) wins; for an
exact `.pptx` extension the first line wins when non-empty and shorter than
100 characters. -/
def extractTitle (filePath content : Str) : Str :=
  let fileName := fileNameOf filePath
  match (if extname filePath = mdExt then mdHeading content else none) with
  | some t => jsTrim t
  | none =>
    if extname filePath = pptxExt then
      let firstLine := content.takeWhile (fun c => c ≠ '\n')
      if firstLine ≠ [] ∧ firstLine.length < 100 then jsTrim firstLine
      else fileName
    else fileName

/-- Split on newline characters (JavaScript content.split with a newline). -/
def splitNl : Str → List Str
  | [] => [[]]
  | c :: rest =>
    let r := splitNl rest
    if c = '\n' then [] :: r
    else
      match r with
      | [] => [[c]]
      | h :: t => (c :: h) :: t

/-- Modelled from the claim's words for C8: a "level-1 heading line" is one
or more hash characters followed by non-hash content. -/
def claimHeadingLine (l : Str) : Bool :=
  let hashes := l.takeWhile (fun c => c = '#')
  0 < hashes.length ∧ l.drop hashes.length ≠ []

/-- Modelled from the claim's words for C8: title derivation with the
one-or-more-hash heading rule and the first-non-empty-line presentation
rule. -/
def extractTitleClaim (filePath content : Str) : Str :=
  let fileName := fileNameOf filePath
  if extname filePath = mdExt then
    match (splitNl content).find? claimHeadingLine with
    | some l => jsTrim (l.dropWhile (fun c => c = '#'))
    | none => fileName
  else if extname filePath = pptxExt then
    match (splitNl content).find? (fun l => l ≠ []) with
    | some l => if l.length < 100 then jsTrim l else fileName
    | none => fileName
  else fileName

/-- The amended title derivation for C8: identical to the code's rule, with
the heading matcher presented as a search over line-start suffixes instead
of a character scan. -/
def extractTitleAmended (filePath content : Str) : Str :=
  let fileName := fileNameOf filePath
  if extname filePath = mdExt then
    match (lineSuffixes content true).findSome? headingAt with
    | some t => jsTrim t
    | none => fileName
  else if extname filePath = pptxExt then
    let firstLine := content.takeWhile (fun c => c ≠ '\n')
    if firstLine ≠ [] ∧ firstLine.length < 100 then jsTrim firstLine
    else fileName
  else fileName

/-! ## FileParser.parsePPTX -/

/-- A PPTX archive entry: its name inside the zip, and the text that
FileParser.extractTextFromSlideXML produces from its data (the XML traversal
itself is an external xml2js concern; only the produced text takes part in
the claims). -/
structure ZipEntry where
  entryName : Str
  slideText : Str
deriving DecidableEq

def slideLit : Str := ("ppt/slides/slide").data

def xmlExt : Str := (".xml").data

/-- Attempt of the slide-name regex at one position: the literal slide path,
one or more digits, then the literal xml extension (the remainder of the
name is unconstrained, as the source pattern is unanchored). -/
def slideMatchAt (cs : Str) : Bool :=
  slideLit.isPrefixOf cs ∧
    (let rest := cs.drop slideLit.length
     let ds := rest.takeWhile (fun c => c.isDigit)
     0 < ds.length ∧ xmlExt.isPrefixOf (rest.drop ds.length))

/-- Unanchored substring match of the slide-name regex, as entryName.match
performs it. -/
def matchesSlide : Str → Bool
  | [] => false
  | c :: rest => slideMatchAt (c :: rest) || matchesSlide rest

/-- The separator joined between slide text blocks. -/
def sepBlock : Str := ("\n\n---\n\n").data

/-- Whether a slide's text survives the emptiness check (JavaScript
truthiness of text.trim()). -/
def keepSlide (e : ZipEntry) : Bool := jsTrim e.slideText ≠ []

/-- FileParser.parsePPTX: walk the archive entries in order, collect the text
of every entry whose name matches the slide pattern and whose trimmed text is
non-empty, and join the blocks with the separator. -/
def parsePPTX (entries : List ZipEntry) : Str :=
  let blocks := entries.foldl
    (fun acc e =>
      if matchesSlide e.entryName then
        if keepSlide e then acc ++ [e.slideText] else acc
      else acc) []
  List.intercalate sepBlock blocks

def digitsToNat (ds : Str) : Nat :=
  ds.foldl (fun n c => 10 * n + (c.toNat - ('0').toNat)) 0

/-- The numeric index of an exactly well-formed slide entry name. -/
def exactSlideNum (s : Str) : Option Nat :=
  if slideLit.isPrefixOf s then
    let rest := s.drop slideLit.length
    let ds := rest.takeWhile (fun c => c.isDigit)
    if 0 < ds.length ∧ rest.drop ds.length = xmlExt then some (digitsToNat ds)
    else none
  else none

/-- Modelled from the claim's words for C3: the matched slide fragments
sorted by their embedded slide number numerically before joining. -/
def parsePPTXClaim (entries : List ZipEntry) : Str :=
  let matched := entries.filterMap
    (fun e => (exactSlideNum e.entryName).map (fun n => (n, e.slideText)))
  let sorted := List.insertionSort (fun a b : Nat × Str => a.1 ≤ b.1) matched
  List.intercalate sepBlock
    ((sorted.map Prod.snd).filter (fun t => jsTrim t ≠ []))

/-! ## KnowledgeDatabase (SQLite table, FTS structure and triggers) -/

/-- The parsed value of the document metadata column (stored serialized; the
serialization is injective on these fields, so the parsed form is kept). -/
structure Meta where
  file_path : Str
  file_size : Nat
  created_at : Str
  updated_at : Str
deriving DecidableEq

/-- A Document record as it flows through the write path. -/
structure Doc where
  id : Str
  source : Str
  source_id : Str
  title : Str
  content : Str
  metadata : Meta
  last_synced : Str
deriving DecidableEq

/-- A row of the primary documents table, with its SQLite rowid. -/
structure Row where
  rowid : Nat
  id : Str
  source : Str
  source_id : Str
  title : Str
  content : Str
  metadata : Meta
  last_synced : Str
deriving DecidableEq

/-- A row of the documents_fts full-text structure: the (id, title, content)
projection keyed by the content table's rowid. -/
structure FtsRow where
  rowid : Nat
  id : Str
  title : Str
  content : Str
deriving DecidableEq

/-- The database state: primary table, search structure, and the next fresh
rowid.  (SQLite guarantees a newly assigned rowid is distinct from every
live row; a monotone counter provides that property.) -/
structure Store where
  documents : List Row
  fts : List FtsRow
  nextRowid : Nat
deriving DecidableEq

/-- The projection maintained by the three FTS triggers. -/
def projRow (r : Row) : FtsRow := ⟨r.rowid, r.id, r.title, r.content⟩

/-- The state created by KnowledgeDatabase.initialize on a fresh file. -/
def initStore : Store := ⟨[], [], 0⟩

def rowKey (r : Row) : Str × Str := (r.source, r.source_id)

def docKey (d : Doc) : Str × Str := (d.source, d.source_id)

/-- The SET clause of the DO UPDATE arm, applied to the rows matching the
conflict key (one row, by the UNIQUE constraint). -/
def updRow (d : Doc) (r : Row) : Row :=
  if r.source = d.source ∧ r.source_id = d.source_id then
    { r with title := d.title, content := d.content,
             metadata := d.metadata, last_synced := d.last_synced }
  else r

/-- The rowids of the primary rows hit by the DO UPDATE arm: the AFTER
UPDATE trigger fires once for each, rewriting the FTS row with that rowid. -/
def keyTargets (d : Doc) (docs : List Row) : List Nat :=
  (docs.filter
    (fun r => decide (r.source = d.source ∧ r.source_id = d.source_id))).map
      (fun r => r.rowid)

/-- Effect of the AFTER UPDATE trigger on one FTS row. -/
def updFts (d : Doc) (targets : List Nat) (f : FtsRow) : FtsRow :=
  if f.rowid ∈ targets then { f with title := d.title, content := d.content }
  else f

/-- KnowledgeDatabase.upsertDocument: INSERT with ON CONFLICT(source,
source_id) DO UPDATE of title, content, metadata, last_synced.  The AFTER
INSERT trigger adds the FTS projection of a fresh row; the AFTER UPDATE
trigger rewrites title and content of the FTS row with the updated rowid.
An insert that collides on the primary key id (a constraint the conflict
clause does not target) raises, leaving the statement without effect. -/
def upsertDocument (d : Doc) (s : Store) : Except Unit Store :=
  match s.documents.find?
      (fun r => decide (r.source = d.source ∧ r.source_id = d.source_id)) with
  | some _ =>
    .ok { documents := s.documents.map (updRow d),
          fts := s.fts.map (updFts d (keyTargets d s.documents)),
          nextRowid := s.nextRowid }
  | none =>
    if s.documents.any (fun r => decide (r.id = d.id)) then .error ()
    else
      let row : Row := ⟨s.nextRowid, d.id, d.source, d.source_id, d.title,
        d.content, d.metadata, d.last_synced⟩
      .ok ⟨s.documents ++ [row], s.fts ++ [projRow row], s.nextRowid + 1⟩

/-- KnowledgeDatabase.deleteDocument: DELETE FROM documents WHERE id = ?;
the AFTER DELETE trigger removes the FTS rows with the deleted rowids. -/
def deleteDocument (i : Str) (s : Store) : Store :=
  let dead := (s.documents.filter (fun r => decide (r.id = i))).map
    (fun r => r.rowid)
  { documents := s.documents.filter (fun r => decide (¬ r.id = i)),
    fts := s.fts.filter (fun f => decide (¬ f.rowid ∈ dead)),
    nextRowid := s.nextRowid }

def batchGo : List Doc → Store → Except Unit Store
  | [], s => .ok s
  | d :: ds, s =>
    match upsertDocument d s with
    | .ok next => batchGo ds next
    | .error e => .error e

/-- KnowledgeDatabase.batchUpsert: the upserts run inside one transaction;
an error rolls the whole batch back, so no intermediate state escapes. -/
def batchUpsert (ds : List Doc) (s : Store) : Except Unit Store := batchGo ds s

/-- KnowledgeDatabase.getDocument: first row with the given id. -/
def getDocument (i : Str) (s : Store) : Option Doc :=
  (s.documents.find? (fun r => decide (r.id = i))).map
    (fun r => ⟨r.id, r.source, r.source_id, r.title, r.content, r.metadata,
      r.last_synced⟩)

/-- The content held by the search structure for an id. -/
def ftsContent (i : Str) (s : Store) : Option Str :=
  (s.fts.find? (fun f => decide (f.id = i))).map (fun f => f.content)

/-- KnowledgeDatabase.getStats: SELECT source, COUNT(*) GROUP BY source,
folded into a source-to-count mapping. -/
def getStats (s : Store) : List (Str × Nat) :=
  (s.documents.map (fun r => r.source)).dedup.map
    (fun src => (src, (s.documents.filter (fun r => decide (r.source = src))).length))

/-- A call through the store's write path. -/
inductive DbOp where
  | up (d : Doc)
  | batch (ds : List Doc)
  | del (i : Str)

/-- Effect of one write call on the database state: a raised constraint
error leaves the state unchanged (single statements take no effect;
transactions roll back). -/
def applyOp (s : Store) : DbOp → Store
  | .up d =>
    match upsertDocument d s with
    | .ok next => next
    | .error _ => s
  | .batch ds =>
    match batchUpsert ds s with
    | .ok next => next
    | .error _ => s
  | .del i => deleteDocument i s

/-- The state after a sequence of write calls against a fresh database. -/
def runOps (ops : List DbOp) : Store := ops.foldl applyOp initStore

/-! ## LocalCrawler -/

/-- A file reached by the crawl: its absolute path, the outcome of
FileParser.parseFile (`none` models a thrown extraction or read error), and
its stat fields. -/
structure FileEntry where
  path : Str
  text : Option Str
  size : Nat
  birthtime : Str
  mtime : Str
deriving DecidableEq

def localSrc : Str := ("local").data

/-- LocalCrawler.processFile: build the Document for one file.  The id is
the path hash (md5 is an external crypto call, modelled as a function
parameter); a thrown extraction error yields no document. -/
def processFile (hash : Str → Str) (now : Str) (f : FileEntry) : Option Doc :=
  f.text.map fun raw =>
    { id := hash f.path
      source := localSrc
      source_id := f.path
      title := extractTitle f.path raw
      content := truncateContent raw
      metadata := ⟨f.path, f.size, f.birthtime, f.mtime⟩
      last_synced := now }

/-- LocalCrawler.indexAll over the matched files of the configured roots:
process each file, skipping per-file failures, commit the survivors as one
batch, and return their count. -/
def indexAll (hash : Str → Str) (now : Str) (files : List FileEntry)
    (s : Store) : Except Unit (Nat × Store) :=
  let docs := files.filterMap (processFile hash now)
  (batchUpsert docs s).map (fun next => (docs.length, next))

/-- The watcher's unlink handler (for a path passing the extension filter):
hash the path and delete that record. -/
def unlinkEvent (hash : Str → Str) (p : Str) (s : Store) : Store :=
  deleteDocument (hash p) s

/-! ## Search tool surface (KnowledgeMCPServer.handleSearch) -/

def dots : Str := ('.') :: ('.') :: ('.') :: []

/-- The preview built by handleSearch for each result document:
content.substring(0, 200) with the ellipsis appended unconditionally. -/
def previewOf (content : Str) : Str := content.take 200 ++ dots

/-! ## Concrete instances used by counterexamples and witnesses -/

/-- Stand-in for the md5 path hash of the crawler: any concrete injective
function serves, since every claim involving the hash depends only on its
determinism and collision-freedom on the finitely many paths in play. -/
def hashFn (p : Str) : Str := p

def okOf {α : Type} : Except Unit α → Option α
  | .ok a => some a
  | .error _ => none

def ceEntries : List ZipEntry :=
  [⟨("ppt/slides/slide2.xml").data, ('B') :: []⟩,
   ⟨("ppt/slides/slide1.xml").data, ('A') :: []⟩]

def ceEmptyFile : FileEntry := ⟨("empty.txt").data, some [], 0, [], []⟩

def ceOldFile : FileEntry := ⟨("old.txt").data, some (('x') :: []), 1, [], []⟩

def ceNewFile : FileEntry := ⟨("new.txt").data, some (('x') :: []), 1, [], []⟩

def ceLongContent : Str := List.replicate 200 'a' ++ dots

def ceStatsStore : Store :=
  ⟨[⟨0, ('i') :: [], localSrc, ('p') :: [], [], ('c') :: [], ⟨[], 0, [], []⟩, []⟩],
   [⟨0, ('i') :: [], [], ('c') :: []⟩], 1⟩

def ceBadFile : FileEntry := ⟨("bad.bin").data, none, 0, [], []⟩

/-- The stored-content cap in the claim's own phrasing: text of length at
most 100000 is kept unchanged, longer text becomes exactly its first 100000
characters followed by the truncation marker. -/
def truncationSpec (raw : Str) : Str :=
  if raw.length ≤ 100000 then raw else raw.take 100000 ++ truncMarker

/-- The row created for a document freshly inserted at a given rowid. -/
def mkRow (n : Nat) (d : Doc) : Row :=
  ⟨n, d.id, d.source, d.source_id, d.title, d.content, d.metadata,
   d.last_synced⟩

/-- Rows created by inserting a batch of documents at consecutive rowids. -/
def rowsAt : Nat → List Doc → List Row
  | _, [] => []
  | n, d :: ds => mkRow n d :: rowsAt (n + 1) ds

/-- A store in invariant shape: the FTS structure is the projection of the
given rows. -/
def mkStore (rows : List Row) (nr : Nat) : Store := ⟨rows, rows.map projRow, nr⟩

/-- A row after a re-crawl refreshed only its sync timestamp. -/
def reSync (t : Str) (r : Row) : Row := { r with last_synced := t }

/-- A document rebuilt by a later crawl of the unchanged file: only the
sync timestamp differs. -/
def reSyncDoc (t : Str) (d : Doc) : Doc := { d with last_synced := t }

/-- Every row came through the local write path: its source is the local
tag and its id is the hash of its path. -/
def LocalShape (hash : Str → Str) (rows : List Row) : Prop :=
  ∀ r ∈ rows, r.source = localSrc ∧ r.id = hash r.source_id

/-! ## Store invariant: the FTS structure mirrors the primary table -/

/-- The consistency invariant of a database state: the search structure is
exactly the projection of the primary table, live rowids are pairwise
distinct, and the fresh-rowid counter dominates them. -/
def GoodStore (s : Store) : Prop :=
  s.fts = s.documents.map projRow ∧
  (s.documents.map (fun r => r.rowid)).Nodup ∧
  ∀ r ∈ s.documents, r.rowid < s.nextRowid

lemma good_initStore : GoodStore initStore := by
  refine ⟨rfl, List.nodup_nil, ?_⟩
  intro r hr
  simp [initStore] at hr

lemma mem_rowids_filter_iff {docs : List Row} {p : Row → Bool}
    (hnd : (docs.map (fun r => r.rowid)).Nodup) {r : Row} (hr : r ∈ docs) :
    r.rowid ∈ (docs.filter p).map (fun r => r.rowid) ↔ p r := by
  constructor
  · intro hmem
    obtain ⟨r2, hr2, heq⟩ := List.mem_map.mp hmem
    obtain ⟨hr2mem, hp2⟩ := List.mem_filter.mp hr2
    have : r2 = r := List.inj_on_of_nodup_map hnd hr2mem hr heq
    exact this ▸ hp2
  · intro hp
    exact List.mem_map.mpr ⟨r, List.mem_filter.mpr ⟨hr, hp⟩, rfl⟩

lemma updRow_rowid (d : Doc) (r : Row) : (updRow d r).rowid = r.rowid := by
  unfold updRow
  by_cases hp : r.source = d.source ∧ r.source_id = d.source_id <;> simp [hp]

lemma updFts_projRow (d : Doc) {docs : List Row}
    (hnd : (docs.map (fun r => r.rowid)).Nodup) {r : Row} (hr : r ∈ docs) :
    updFts d (keyTargets d docs) (projRow r) = projRow (updRow d r) := by
  by_cases hp : r.source = d.source ∧ r.source_id = d.source_id
  · have ht : r.rowid ∈ keyTargets d docs :=
      (mem_rowids_filter_iff hnd hr).mpr (decide_eq_true hp)
    unfold updFts updRow projRow
    rw [if_pos ht, if_pos hp]
  · have ht : ¬ r.rowid ∈ keyTargets d docs := by
      intro hmem
      exact hp (of_decide_eq_true ((mem_rowids_filter_iff hnd hr).mp hmem))
    unfold updFts updRow projRow
    rw [if_neg ht, if_neg hp]

lemma good_upsertDocument {d : Doc} {s s2 : Store} (hg : GoodStore s)
    (h : upsertDocument d s = .ok s2) : GoodStore s2 := by
  obtain ⟨hfts, hnd, hbound⟩ := hg
  unfold upsertDocument at h
  cases hfind : s.documents.find?
      (fun r => decide (r.source = d.source ∧ r.source_id = d.source_id)) with
  | some r0 =>
    rw [hfind] at h
    simp only [Except.ok.injEq] at h
    subst h
    have hrowids : (s.documents.map (updRow d)).map (fun r => r.rowid) =
        s.documents.map (fun r => r.rowid) := by
      rw [List.map_map]
      exact List.map_congr_left (fun r _ => updRow_rowid d r)
    refine ⟨?_, ?_, ?_⟩
    · show s.fts.map _ = (s.documents.map (updRow d)).map projRow
      rw [hfts, List.map_map, List.map_map]
      exact List.map_congr_left (fun r hr => updFts_projRow d hnd hr)
    · show ((s.documents.map (updRow d)).map (fun r => r.rowid)).Nodup
      rw [hrowids]
      exact hnd
    · intro r hr
      obtain ⟨r1, hr1, heq⟩ := List.mem_map.mp hr
      show r.rowid < s.nextRowid
      rw [← heq, updRow_rowid]
      exact hbound r1 hr1
  | none =>
    rw [hfind] at h
    by_cases hany : s.documents.any (fun r => decide (r.id = d.id))
    · simp [hany] at h
    · rw [if_neg hany] at h
      simp only [Except.ok.injEq] at h
      subst h
      refine ⟨?_, ?_, ?_⟩
      · show s.fts ++ _ = (s.documents ++ _).map projRow
        rw [hfts, List.map_append, List.map_cons, List.map_nil]
      · show ((s.documents ++ _).map (fun r => r.rowid)).Nodup
        rw [List.map_append, List.nodup_append]
        refine ⟨hnd, List.nodup_singleton _, ?_⟩
        intro x hx hx2
        simp only [List.map_cons, List.map_nil, List.mem_singleton] at hx2
        obtain ⟨r1, hr1, heq⟩ := List.mem_map.mp hx
        have := hbound r1 hr1
        omega
      · intro r hr
        rcases List.mem_append.mp hr with hr | hr
        · exact Nat.lt_succ_of_lt (hbound r hr)
        · simp only [List.mem_singleton] at hr
          subst hr
          exact Nat.lt_succ_self _

lemma good_deleteDocument {i : Str} {s : Store} (hg : GoodStore s) :
    GoodStore (deleteDocument i s) := by
  obtain ⟨hfts, hnd, hbound⟩ := hg
  refine ⟨?_, ?_, ?_⟩
  · show s.fts.filter _ = (s.documents.filter _).map projRow
    rw [hfts, List.filter_map]
    refine congrArg _ (List.filter_congr ?_)
    intro r hr
    simp only [Function.comp, projRow, decide_eq_decide]
    constructor
    · intro hmem hid
      exact hmem ((mem_rowids_filter_iff hnd hr).mpr (decide_eq_true hid))
    · intro hid hmem
      exact hid (of_decide_eq_true ((mem_rowids_filter_iff hnd hr).mp hmem))
  · exact List.Sublist.nodup (List.Sublist.map _ (List.filter_sublist _)) hnd
  · intro r hr
    exact hbound r (List.mem_of_mem_filter hr)

lemma good_batchGo {ds : List Doc} {s s2 : Store} (hg : GoodStore s)
    (h : batchGo ds s = .ok s2) : GoodStore s2 := by
  induction ds generalizing s with
  | nil => simp only [batchGo, Except.ok.injEq] at h; exact h ▸ hg
  | cons d ds ih =>
    simp only [batchGo] at h
    cases hup : upsertDocument d s with
    | ok next =>
      rw [hup] at h
      exact ih (good_upsertDocument hg hup) h
    | error e => rw [hup] at h; cases h

lemma good_applyOp {s : Store} (hg : GoodStore s) (op : DbOp) :
    GoodStore (applyOp s op) := by
  cases op with
  | up d =>
    simp only [applyOp]
    split
    · rename_i next hup
      exact good_upsertDocument hg hup
    · exact hg
  | batch ds =>
    simp only [applyOp, batchUpsert]
    split
    · rename_i next hb
      exact good_batchGo hg hb
    · exact hg
  | del i => exact good_deleteDocument hg

lemma good_runOps (ops : List DbOp) : GoodStore (runOps ops) := by
  suffices h : ∀ s : Store, GoodStore s → GoodStore (ops.foldl applyOp s) by
    exact h initStore good_initStore
  induction ops with
  | nil => intro s hg; exact hg
  | cons op ops ih =>
    intro s hg
    exact ih _ (good_applyOp hg op)

/-- Claim C1: after any sequence of upsertDocument / batchUpsert /
deleteDocument calls through the store's write path, the full-text search
structure holds exactly the (id, title, content) projection of the primary
documents table, and getDocument returns content equal to what the search
structure holds for that id. -/
theorem fts_search_consistent (ops : List DbOp) :
    (runOps ops).fts = (runOps ops).documents.map projRow ∧
    ∀ i : Str, (getDocument i (runOps ops)).map (fun doc => doc.content) =
      ftsContent i (runOps ops) := by
  have hg := good_runOps ops
  refine ⟨hg.1, fun i => ?_⟩
  unfold getDocument ftsContent
  rw [hg.1, List.find?_map]
  simp only [Option.map_map]
  rfl

/-- Claim C2: the content stored for a file equals the extracted text when
that text has at most 100000 characters, and exactly the first 100000
characters followed by the truncation marker (and nothing else) when it is
longer. -/
theorem stored_content_spec (hash : Str → Str) (now : Str) (f : FileEntry) :
    (processFile hash now f).map (fun doc => doc.content) =
      f.text.map truncationSpec := by
  cases htext : f.text with
  | none => simp [processFile, htext]
  | some raw =>
    simp only [processFile, htext, Option.map_some]
    refine congrArg some ?_
    show truncateContent raw = truncationSpec raw
    unfold truncateContent truncationSpec
    by_cases h : 100000 < raw.length
    · rw [if_pos h, if_neg (by omega)]
    · rw [if_neg h, if_pos (by omega)]

/-- Claim C5 counterexample: a file whose extraction succeeds with empty
text is still indexed — the crawl commits one document whose stored content
is empty, contradicting the claim that an empty extraction result aborts
the write. -/
theorem empty_content_cex :
    (okOf (indexAll hashFn [] [ceEmptyFile] initStore)).map
      (fun p => (p.1, p.2.documents.map (fun r => r.content))) =
      some (1, [[]]) := by decide

/-- Claim C5 (amended): a document is built for a file exactly when its
extraction does not fail — a thrown extraction error aborts the write for
that document, while an empty extraction result is stored as-is (the
stored content is the capped extracted text, empty or not). -/
theorem extraction_gate (hash : Str → Str) (now : Str) (f : FileEntry) :
    ((processFile hash now f).isNone ↔ f.text.isNone) ∧
    (processFile hash now f).map (fun doc => doc.content) =
      f.text.map truncateContent := by
  cases htext : f.text <;> simp [processFile, htext]

/-- Claim C9: the stats mapping has an entry for a source exactly when at
least one stored document has that source, each entry's count is the exact
number of stored documents with that source, and no entry carries count
zero. -/
theorem stats_exact (s : Store) (src : Str) :
    ((∃ n, (src, n) ∈ getStats s) ↔ ∃ r ∈ s.documents, r.source = src) ∧
    ∀ n, (src, n) ∈ getStats s →
      n = (s.documents.filter (fun r => decide (r.source = src))).length ∧
      0 < n := by
  constructor
  · constructor
    · rintro ⟨n, hn⟩
      unfold getStats at hn
      obtain ⟨src2, hsrc2, heq⟩ := List.mem_map.mp hn
      simp only [Prod.mk.injEq] at heq
      obtain ⟨h1, h2⟩ := heq
      have hsrc2mem : src2 ∈ s.documents.map (fun r => r.source) :=
        List.mem_dedup.mp hsrc2
      obtain ⟨r, hr, hrs⟩ := List.mem_map.mp hsrc2mem
      exact ⟨r, hr, by rw [hrs, h1]⟩
    · rintro ⟨r, hr, hrs⟩
      refine ⟨(s.documents.filter (fun x => decide (x.source = src))).length, ?_⟩
      unfold getStats
      exact List.mem_map.mpr
        ⟨src, List.mem_dedup.mpr (List.mem_map.mpr ⟨r, hr, hrs⟩), rfl⟩
  · intro n hn
    unfold getStats at hn
    obtain ⟨src2, hsrc2, heq⟩ := List.mem_map.mp hn
    simp only [Prod.mk.injEq] at heq
    obtain ⟨h1, h2⟩ := heq
    subst h1
    refine ⟨h2.symm, ?_⟩
    have hsrc2mem : src2 ∈ s.documents.map (fun r => r.source) :=
      List.mem_dedup.mp hsrc2
    obtain ⟨r, hr, hrs⟩ := List.mem_map.mp hsrc2mem
    have hmem : r ∈ s.documents.filter (fun x => decide (x.source = src2)) :=
      List.mem_filter.mpr ⟨hr, decide_eq_true hrs⟩
    have := List.length_pos_of_mem hmem
    omega

/-- Claim C9 witness: the theorem applied to a concrete one-document store
with a live entry of the stats mapping. -/
theorem stats_exact_witness :
    ((localSrc, 1) ∈ getStats ceStatsStore) ∧
    (1 = (ceStatsStore.documents.filter
      (fun r => decide (r.source = localSrc))).length ∧ 0 < 1) :=
  ⟨by decide, (stats_exact ceStatsStore localSrc).2 1 (by decide)⟩

set_option maxRecDepth 4000 in
/-- Claim C10 counterexample: a stored content of exactly 203 characters
ending in the three-dot suffix is returned as a preview equal to the full
stored content, contradicting the claim that the preview never equals the
stored content. -/
theorem preview_claim_cex : previewOf ceLongContent = ceLongContent := by
  decide

/-- Claim C10 (amended): the preview equals the first min(200, length)
characters of the stored content with the three-dot suffix appended
unconditionally, and it equals the full stored content exactly when the
content's tail beyond 200 characters is the three-dot suffix itself (203
characters ending in the suffix); in every other case the two differ. -/
theorem preview_spec (content : Str) :
    previewOf content = content.take (min 200 content.length) ++ dots ∧
    (previewOf content = content ↔ content.drop 200 = dots) := by
  constructor
  · unfold previewOf
    refine congrArg (fun l => l ++ dots) ?_
    by_cases h : content.length ≤ 200
    · rw [List.take_of_length_le h, Nat.min_eq_right h, List.take_length]
    · rw [Nat.min_eq_left (by omega)]
  · constructor
    · intro h
      have h2 : content.take 200 ++ dots =
          content.take 200 ++ content.drop 200 := by
        rw [List.take_append_drop]
        exact h
      exact (List.append_cancel_left h2).symm
    · intro h
      unfold previewOf
      rw [← h, List.take_append_drop]

/-- Claim C3 counterexample: an archive holding slide 2 before slide 1
is emitted in archive-entry order (slide 2's text first), not in the
ascending numeric slide order the claim requires. -/
theorem slide_order_cex :
    parsePPTX ceEntries = ("B\n\n---\n\nA").data ∧
    parsePPTXClaim ceEntries = ("A\n\n---\n\nB").data := by decide

lemma foldl_blocks (entries : List ZipEntry) (acc : List Str) :
    entries.foldl
      (fun acc e =>
        if matchesSlide e.entryName then
          if keepSlide e then acc ++ [e.slideText] else acc
        else acc) acc =
    acc ++ (entries.filter
      (fun e => matchesSlide e.entryName && keepSlide e)).map
        (fun e => e.slideText) := by
  induction entries generalizing acc with
  | nil => simp
  | cons e es ih =>
    simp only [List.foldl_cons, List.filter_cons]
    by_cases h1 : matchesSlide e.entryName
    · by_cases h2 : keepSlide e
      · rw [if_pos h1, if_pos h2, ih]
        simp [h1, h2]
      · rw [if_pos h1, if_neg h2, ih]
        simp [h1, h2]
    · rw [if_neg h1, ih]
      simp [h1]

/-- Claim C3 (amended): the extractor emits the text blocks of the entries
matching the slide-name pattern in archive-entry order (no numeric sort is
performed), joined by the separator; entries whose text trims to empty are
omitted without disturbing the order of the rest. -/
theorem slide_order_archive (entries : List ZipEntry) :
    parsePPTX entries = List.intercalate sepBlock
      ((entries.filter
        (fun e => matchesSlide e.entryName && keepSlide e)).map
          (fun e => e.slideText)) := by
  unfold parsePPTX
  rw [foldl_blocks]
  rw [List.nil_append]

/-- Claim C8 counterexample: on a markdown file whose content is a level-2
heading line, the code keeps the filename-derived title while the claim's
one-or-more-hash heading rule would extract the heading text. -/
theorem title_claim_cex :
    extractTitle (("doc.md").data) (("## Sub").data) = ("doc").data ∧
    extractTitleClaim (("doc.md").data) (("## Sub").data) = ("Sub").data := by
  decide

lemma scanFrom_lineSuffixes (cs : Str) (b : Bool) :
    scanFrom cs b = (lineSuffixes cs b).findSome? headingAt := by
  induction cs generalizing b with
  | nil => cases b <;> rfl
  | cons c rest ih =>
    cases b with
    | true =>
      cases h : headingAt (c :: rest) <;>
        simp [scanFrom, lineSuffixes, List.findSome?, h, ih]
    | false =>
      simp [scanFrom, lineSuffixes, ih]

/-- Claim C8 (amended): the title defaults to the filename without
extension; for an exact `.md` extension the first match of the code's
heading pattern — a line start, a single hash, one or more whitespace
characters (regex whitespace, which may span line breaks), then a
non-empty captured run up to the end of a line — overrides the filename
after trimming; for an exact `.pptx` extension the first line of the
extracted text (the text before the first newline, not the first non-empty
line) overrides the filename after trimming exactly when it is non-empty
and shorter than 100 characters. -/
theorem title_derivation (filePath content : Str) :
    extractTitle filePath content = extractTitleAmended filePath content := by
  unfold extractTitle extractTitleAmended mdHeading
  rw [scanFrom_lineSuffixes]
  by_cases hmd : extname filePath = mdExt
  · have hpptx : ¬ extname filePath = pptxExt := by
      rw [hmd]
      decide
    cases h : (lineSuffixes content true).findSome? headingAt with
    | some t => simp [hmd, hpptx, h]
    | none =>
      simp [hmd, hpptx, h]
      intro hfalse
      exact absurd hfalse (by decide)
  · simp [hmd]

/-! ## Batch write lemmas for the crawl claims -/

lemma find?_append_none {α : Type} {p : α → Bool} {l1 l2 : List α}
    (h : l1.find? p = none) : (l1 ++ l2).find? p = l2.find? p := by
  induction l1 with
  | nil => rfl
  | cons a l1 ih =>
    simp only [List.cons_append, List.find?_cons] at h ⊢
    cases hp : p a with
    | true =>
      simp only [hp] at h
      exact Option.noConfusion h
    | false =>
      simp only [hp] at h ⊢
      exact ih h

lemma upsert_fresh {d : Doc} {rows : List Row} {nr : Nat}
    (hkey : ∀ r ∈ rows, ¬ (r.source = d.source ∧ r.source_id = d.source_id))
    (hid : ∀ r ∈ rows, r.id ≠ d.id) :
    upsertDocument d (mkStore rows nr) =
      .ok (mkStore (rows ++ [mkRow nr d]) (nr + 1)) := by
  unfold upsertDocument
  have hfind : rows.find?
      (fun r => decide (r.source = d.source ∧ r.source_id = d.source_id)) =
        none := by
    apply List.find?_eq_none.mpr
    intro r hr
    simpa using hkey r hr
  have hany : rows.any (fun r => decide (r.id = d.id)) = false := by
    apply List.any_eq_false.mpr
    intro r hr
    simpa using hid r hr
  show (match rows.find? _ with
    | some _ => _
    | none => _) = _
  rw [hfind]
  simp only [mkStore, hany, Bool.false_eq_true, if_false]
  refine congrArg Except.ok ?_
  refine congrArg (fun fts => Store.mk (rows ++ [mkRow nr d]) fts (nr + 1)) ?_
  rw [List.map_append, List.map_cons, List.map_nil]
  rfl

lemma batchGo_insert (ds : List Doc) :
    ∀ (rows : List Row) (nr : Nat),
    (∀ d ∈ ds, ∀ r ∈ rows,
      ¬ (r.source = d.source ∧ r.source_id = d.source_id)) →
    (∀ d ∈ ds, ∀ r ∈ rows, r.id ≠ d.id) →
    (ds.map docKey).Nodup →
    (ds.map (fun d => d.id)).Nodup →
    batchGo ds (mkStore rows nr) =
      .ok (mkStore (rows ++ rowsAt nr ds) (nr + ds.length)) := by
  induction ds with
  | nil =>
    intro rows nr _ _ _ _
    simp [batchGo, rowsAt]
  | cons d ds ih =>
    intro rows nr hkey hid hknd hind
    simp only [batchGo]
    rw [upsert_fresh (hkey d (List.mem_cons_self d ds))
      (hid d (List.mem_cons_self d ds))]
    show batchGo ds (mkStore (rows ++ [mkRow nr d]) (nr + 1)) = _
    have hkey2 : ∀ d2 ∈ ds, ∀ r ∈ rows ++ [mkRow nr d],
        ¬ (r.source = d2.source ∧ r.source_id = d2.source_id) := by
      intro d2 hd2 r hr
      rcases List.mem_append.mp hr with hr | hr
      · exact hkey d2 (List.mem_cons_of_mem d hd2) r hr
      · simp only [List.mem_singleton] at hr
        subst hr
        rintro ⟨h1, h2⟩
        have hdk : docKey d = docKey d2 := by
          unfold docKey
          simp only [mkRow] at h1 h2
          rw [h1, h2]
        have : docKey d ∉ ds.map docKey := (List.nodup_cons.mp hknd).1
        exact this (hdk ▸ List.mem_map.mpr ⟨d2, hd2, rfl⟩)
    have hid2 : ∀ d2 ∈ ds, ∀ r ∈ rows ++ [mkRow nr d], r.id ≠ d2.id := by
      intro d2 hd2 r hr
      rcases List.mem_append.mp hr with hr | hr
      · exact hid d2 (List.mem_cons_of_mem d hd2) r hr
      · simp only [List.mem_singleton] at hr
        subst hr
        intro h1
        have : d.id ∉ ds.map (fun d => d.id) := (List.nodup_cons.mp hind).1
        refine this ?_
        have : (mkRow nr d).id = d.id := rfl
        exact (this ▸ h1) ▸ List.mem_map.mpr ⟨d2, hd2, rfl⟩
    rw [ih (rows ++ [mkRow nr d]) (nr + 1) hkey2 hid2
      (List.nodup_cons.mp hknd).2 (List.nodup_cons.mp hind).2]
    refine congrArg Except.ok ?_
    show mkStore (rows ++ [mkRow nr d] ++ rowsAt (nr + 1) ds)
        (nr + 1 + ds.length) = _
    rw [List.append_assoc]
    show mkStore (rows ++ rowsAt nr (d :: ds)) _ = _
    refine congrArg (mkStore _) ?_
    simp only [List.length_cons]
    omega

lemma keyTargets_middle {d2 : Doc} {r0 : Row} {pre post : List Row}
    (hkeypre : ∀ r ∈ pre, ¬ (r.source = d2.source ∧ r.source_id = d2.source_id))
    (hkeypost : ∀ r ∈ post, ¬ (r.source = d2.source ∧ r.source_id = d2.source_id))
    (hr0 : r0.source = d2.source ∧ r0.source_id = d2.source_id) :
    keyTargets d2 (pre ++ r0 :: post) = [r0.rowid] := by
  unfold keyTargets
  rw [List.filter_append, List.filter_cons]
  have h1 : pre.filter
      (fun r => decide (r.source = d2.source ∧ r.source_id = d2.source_id)) = [] := by
    apply List.filter_eq_nil_iff.mpr
    intro r hr
    simpa using hkeypre r hr
  have h2 : post.filter
      (fun r => decide (r.source = d2.source ∧ r.source_id = d2.source_id)) = [] := by
    apply List.filter_eq_nil_iff.mpr
    intro r hr
    simpa using hkeypost r hr
  rw [h1, h2, if_pos (decide_eq_true hr0)]
  rfl

lemma upsert_update {d2 : Doc} {r0 : Row} {pre post : List Row} {nr : Nat}
    (hkeypre : ∀ r ∈ pre, ¬ (r.source = d2.source ∧ r.source_id = d2.source_id))
    (hkeypost : ∀ r ∈ post, ¬ (r.source = d2.source ∧ r.source_id = d2.source_id))
    (hr0 : r0.source = d2.source ∧ r0.source_id = d2.source_id)
    (hpre : ∀ r ∈ pre, r.rowid ≠ r0.rowid)
    (hpost : ∀ r ∈ post, r.rowid ≠ r0.rowid) :
    upsertDocument d2 (mkStore (pre ++ r0 :: post) nr) =
      .ok (mkStore (pre ++ updRow d2 r0 :: post) nr) := by
  unfold upsertDocument
  have hfind : (pre ++ r0 :: post).find?
      (fun r => decide (r.source = d2.source ∧ r.source_id = d2.source_id)) =
        some r0 := by
    rw [find?_append_none (List.find?_eq_none.mpr
      (fun r hr => by simpa using hkeypre r hr))]
    exact List.find?_cons_of_pos _ (decide_eq_true hr0)
  show (match (pre ++ r0 :: post).find? _ with
    | some _ => _
    | none => _) = _
  rw [hfind]
  show Except.ok _ = Except.ok _
  refine congrArg Except.ok ?_
  unfold mkStore
  rw [keyTargets_middle hkeypre hkeypost hr0]
  have hpredocs : pre.map (updRow d2) = pre := by
    have h : ∀ r ∈ pre, updRow d2 r = r := by
      intro r hr
      unfold updRow
      rw [if_neg (hkeypre r hr)]
    rw [List.map_congr_left h]
    simp
  have hpostdocs : post.map (updRow d2) = post := by
    have h : ∀ r ∈ post, updRow d2 r = r := by
      intro r hr
      unfold updRow
      rw [if_neg (hkeypost r hr)]
    rw [List.map_congr_left h]
    simp
  have hprefts : (pre.map projRow).map (updFts d2 [r0.rowid]) =
      pre.map projRow := by
    rw [List.map_map]
    have h : ∀ r ∈ pre, (updFts d2 [r0.rowid] ∘ projRow) r = projRow r := by
      intro r hr
      show updFts d2 [r0.rowid] (projRow r) = projRow r
      unfold updFts projRow
      rw [if_neg (by simpa using hpre r hr)]
    rw [List.map_congr_left h]
  have hpostfts : (post.map projRow).map (updFts d2 [r0.rowid]) =
      post.map projRow := by
    rw [List.map_map]
    have h : ∀ r ∈ post, (updFts d2 [r0.rowid] ∘ projRow) r = projRow r := by
      intro r hr
      show updFts d2 [r0.rowid] (projRow r) = projRow r
      unfold updFts projRow
      rw [if_neg (by simpa using hpost r hr)]
    rw [List.map_congr_left h]
  have hr0fts : updFts d2 [r0.rowid] (projRow r0) = projRow (updRow d2 r0) := by
    unfold updFts updRow projRow
    rw [if_pos (by simp), if_pos hr0]
  congr 1
  · rw [List.map_append, List.map_cons, hpredocs, hpostdocs]
  · rw [List.map_append, List.map_cons, List.map_append, List.map_cons,
      hprefts, hpostfts, hr0fts, List.map_append, List.map_cons]

lemma mem_rowsAt {ds : List Doc} : ∀ {n : Nat} {r : Row},
    r ∈ rowsAt n ds → ∃ d ∈ ds, ∃ m, n ≤ m ∧ r = mkRow m d := by
  induction ds with
  | nil =>
    intro n r hr
    cases hr
  | cons d ds ih =>
    intro n r hr
    simp only [rowsAt] at hr
    rcases List.mem_cons.mp hr with hr | hr
    · exact ⟨d, List.mem_cons_self d ds, n, Nat.le_refl n, hr⟩
    · obtain ⟨d2, hd2, m, hm, heq⟩ := ih hr
      exact ⟨d2, List.mem_cons_of_mem d hd2, m, by omega, heq⟩

lemma batchGo_refresh (ds : List Doc) (t : Str) :
    ∀ (pre : List Row) (base nr : Nat),
    (ds.map docKey).Nodup →
    (∀ d ∈ ds, ∀ r ∈ pre,
      ¬ (r.source = d.source ∧ r.source_id = d.source_id)) →
    (∀ r ∈ pre, r.rowid < base) →
    batchGo (ds.map (reSyncDoc t)) (mkStore (pre ++ rowsAt base ds) nr) =
      .ok (mkStore (pre ++ (rowsAt base ds).map (reSync t)) nr) := by
  induction ds with
  | nil =>
    intro pre base nr _ _ _
    simp [batchGo, rowsAt]
  | cons d ds ih =>
    intro pre base nr hknd hkey hbound
    simp only [List.map_cons, batchGo, rowsAt]
    have hheadkey : docKey d ∉ ds.map docKey := (List.nodup_cons.mp hknd).1
    have hkeypre : ∀ r ∈ pre,
        ¬ (r.source = (reSyncDoc t d).source ∧
           r.source_id = (reSyncDoc t d).source_id) := by
      intro r hr
      exact hkey d (List.mem_cons_self d ds) r hr
    have hkeypost : ∀ r ∈ rowsAt (base + 1) ds,
        ¬ (r.source = (reSyncDoc t d).source ∧
           r.source_id = (reSyncDoc t d).source_id) := by
      intro r hr
      obtain ⟨d2, hd2, m, _, heq⟩ := mem_rowsAt hr
      subst heq
      rintro ⟨h1, h2⟩
      refine hheadkey ?_
      have : docKey d = docKey d2 := by
        unfold docKey
        simp only [mkRow, reSyncDoc] at h1 h2
        rw [← h1, ← h2]
      exact this ▸ List.mem_map.mpr ⟨d2, hd2, rfl⟩
    have hr0 : (mkRow base d).source = (reSyncDoc t d).source ∧
        (mkRow base d).source_id = (reSyncDoc t d).source_id := ⟨rfl, rfl⟩
    have hprene : ∀ r ∈ pre, r.rowid ≠ (mkRow base d).rowid := by
      intro r hr
      have := hbound r hr
      simp only [mkRow]
      omega
    have hpostne : ∀ r ∈ rowsAt (base + 1) ds,
        r.rowid ≠ (mkRow base d).rowid := by
      intro r hr
      obtain ⟨d2, _, m, hm, heq⟩ := mem_rowsAt hr
      subst heq
      simp only [mkRow]
      omega
    rw [upsert_update hkeypre hkeypost hr0 hprene hpostne]
    show batchGo (ds.map (reSyncDoc t))
      (mkStore (pre ++ updRow (reSyncDoc t d) (mkRow base d) :: rowsAt (base + 1) ds) nr) = _
    have hupd : updRow (reSyncDoc t d) (mkRow base d) =
        reSync t (mkRow base d) := by
      unfold updRow
      rw [if_pos ⟨rfl, rfl⟩]
      rfl
    rw [hupd]
    rw [show pre ++ reSync t (mkRow base d) :: rowsAt (base + 1) ds =
      (pre ++ [reSync t (mkRow base d)]) ++ rowsAt (base + 1) ds by simp]
    have hkey2 : ∀ d2 ∈ ds, ∀ r ∈ pre ++ [reSync t (mkRow base d)],
        ¬ (r.source = d2.source ∧ r.source_id = d2.source_id) := by
      intro d2 hd2 r hr
      rcases List.mem_append.mp hr with hr | hr
      · exact hkey d2 (List.mem_cons_of_mem d hd2) r hr
      · simp only [List.mem_singleton] at hr
        subst hr
        rintro ⟨h1, h2⟩
        refine hheadkey ?_
        have : docKey d = docKey d2 := by
          unfold docKey
          simp only [reSync, mkRow] at h1 h2
          rw [← h1, ← h2]
        exact this ▸ List.mem_map.mpr ⟨d2, hd2, rfl⟩
    have hbound2 : ∀ r ∈ pre ++ [reSync t (mkRow base d)],
        r.rowid < base + 1 := by
      intro r hr
      rcases List.mem_append.mp hr with hr | hr
      · have := hbound r hr
        omega
      · simp only [List.mem_singleton] at hr
        subst hr
        simp only [reSync, mkRow]
        omega
    rw [ih (pre ++ [reSync t (mkRow base d)]) (base + 1) nr
      (List.nodup_cons.mp hknd).2 hkey2 hbound2]
    refine congrArg Except.ok ?_
    refine congrArg (fun rows => mkStore rows nr) ?_
    simp

lemma processFile_reSync (hash : Str → Str) (t1 t2 : Str) (f : FileEntry) :
    processFile hash t2 f = (processFile hash t1 f).map (reSyncDoc t2) := by
  cases htext : f.text <;> simp [processFile, htext, reSyncDoc]

lemma docs_paths (hash : Str → Str) (now : Str) (files : List FileEntry) :
    (files.filterMap (processFile hash now)).map (fun d => d.source_id) =
      (files.filter (fun f => f.text.isSome)).map (fun f => f.path) := by
  induction files with
  | nil => rfl
  | cons f fs ih =>
    cases htext : f.text with
    | none =>
      simp [List.filterMap_cons, processFile, htext, List.filter_cons, ih]
    | some raw =>
      simp [List.filterMap_cons, processFile, htext, List.filter_cons, ih]

lemma mem_docs_fields (hash : Str → Str) (now : Str) (files : List FileEntry)
    {d : Doc} (hd : d ∈ files.filterMap (processFile hash now)) :
    d.source = localSrc ∧ d.id = hash d.source_id := by
  obtain ⟨f, _, heq⟩ := List.mem_filterMap.mp hd
  cases htext : f.text with
  | none => simp [processFile, htext] at heq
  | some raw =>
    simp only [processFile, htext, Option.map_some', Option.some.injEq] at heq
    subst heq
    exact ⟨rfl, rfl⟩

lemma docs_for_file (hash : Str → Str) (now : Str) (files : List FileEntry)
    (f : FileEntry) (hf : f ∈ files) (raw : Str) (htext : f.text = some raw) :
    ∃ d ∈ files.filterMap (processFile hash now), d.source_id = f.path := by
  refine ⟨⟨hash f.path, localSrc, f.path, extractTitle f.path raw,
    truncateContent raw, ⟨f.path, f.size, f.birthtime, f.mtime⟩, now⟩,
    List.mem_filterMap.mpr ⟨f, hf, ?_⟩, rfl⟩
  simp [processFile, htext]

lemma docs_sid_nodup (hash : Str → Str) (now : Str) (files : List FileEntry)
    (hnd : (files.map (fun f => f.path)).Nodup) :
    ((files.filterMap (processFile hash now)).map
      (fun d => d.source_id)).Nodup := by
  rw [docs_paths]
  exact List.Nodup.sublist (List.Sublist.map _ (List.filter_sublist files)) hnd

lemma docs_key_nodup (hash : Str → Str) (now : Str) (files : List FileEntry)
    (hnd : (files.map (fun f => f.path)).Nodup) :
    ((files.filterMap (processFile hash now)).map docKey).Nodup := by
  have hsid := docs_sid_nodup hash now files hnd
  have heq : (files.filterMap (processFile hash now)).map
      (fun d => d.source_id) =
      ((files.filterMap (processFile hash now)).map docKey).map Prod.snd := by
    rw [List.map_map]
    rfl
  rw [heq] at hsid
  exact List.Nodup.of_map _ hsid

lemma docs_id_nodup (hash : Str → Str) (now : Str) (files : List FileEntry)
    (hinj : Function.Injective hash)
    (hnd : (files.map (fun f => f.path)).Nodup) :
    ((files.filterMap (processFile hash now)).map (fun d => d.id)).Nodup := by
  have hsid := docs_sid_nodup hash now files hnd
  have heq : (files.filterMap (processFile hash now)).map (fun d => d.id) =
      ((files.filterMap (processFile hash now)).map
        (fun d => d.source_id)).map hash := by
    rw [List.map_map]
    refine List.map_congr_left ?_
    intro d hd
    exact (mem_docs_fields hash now files hd).2
  rw [heq]
  exact List.Nodup.map hinj hsid

/-- Claim C4: a full crawl run twice over an unchanged tree is idempotent —
both runs return the same count and succeed, the stored id set is unchanged,
and every stored row is unchanged except for its advanced last_synced
timestamp (titles and contents included). -/
theorem crawl_idempotent (hash : Str → Str) (t1 t2 : Str)
    (files : List FileEntry) (hinj : Function.Injective hash)
    (hnd : (files.map (fun f => f.path)).Nodup) :
    ∃ n s1 s2,
      indexAll hash t1 files initStore = .ok (n, s1) ∧
      indexAll hash t2 files s1 = .ok (n, s2) ∧
      s2.documents.map (fun r => r.id) = s1.documents.map (fun r => r.id) ∧
      s2.documents = s1.documents.map (reSync t2) := by
  have hknd := docs_key_nodup hash t1 files hnd
  have hind := docs_id_nodup hash t1 files hinj hnd
  have hrun1 := batchGo_insert (files.filterMap (processFile hash t1)) [] 0
    (by intro d hd r hr; cases hr) (by intro d hd r hr; cases hr) hknd hind
  rw [List.nil_append, Nat.zero_add] at hrun1
  have hrun2 := batchGo_refresh (files.filterMap (processFile hash t1)) t2 []
    0 (files.filterMap (processFile hash t1)).length hknd
    (by intro d hd r hr; cases hr) (by intro r hr; cases hr)
  rw [List.nil_append, List.nil_append] at hrun2
  refine ⟨(files.filterMap (processFile hash t1)).length,
    mkStore (rowsAt 0 (files.filterMap (processFile hash t1)))
      (files.filterMap (processFile hash t1)).length,
    mkStore ((rowsAt 0 (files.filterMap (processFile hash t1))).map
      (reSync t2)) (files.filterMap (processFile hash t1)).length,
    ?_, ?_, ?_, ?_⟩
  · show Except.map
      (fun next => ((files.filterMap (processFile hash t1)).length, next))
      (batchGo (files.filterMap (processFile hash t1)) (mkStore [] 0)) = _
    rw [hrun1]
    rfl
  · show Except.map
      (fun next => ((files.filterMap (processFile hash t2)).length, next))
      (batchGo (files.filterMap (processFile hash t2))
        (mkStore (rowsAt 0 (files.filterMap (processFile hash t1)))
          (files.filterMap (processFile hash t1)).length)) = _
    rw [show files.filterMap (processFile hash t2) =
      (files.filterMap (processFile hash t1)).map (reSyncDoc t2) by
        rw [List.map_filterMap]
        exact congrArg (fun g => files.filterMap g)
          (funext fun f2 => processFile_reSync hash t1 t2 f2)]
    rw [hrun2]
    simp only [List.length_map]
    rfl
  · show ((rowsAt 0 (files.filterMap (processFile hash t1))).map
      (reSync t2)).map (fun r => r.id) = _
    rw [List.map_map]
    exact List.map_congr_left (fun r _ => rfl)
  · rfl

/-- Claim C4 witness: the idempotence theorem applied to a concrete
one-file tree with the identity stand-in for the path hash. -/
theorem crawl_idempotent_witness :
    Function.Injective hashFn ∧
    ([ceOldFile].map (fun f => f.path)).Nodup ∧
    (∃ n s1 s2,
      indexAll hashFn (('a') :: []) [ceOldFile] initStore = .ok (n, s1) ∧
      indexAll hashFn (('b') :: []) [ceOldFile] s1 = .ok (n, s2) ∧
      s2.documents.map (fun r => r.id) = s1.documents.map (fun r => r.id) ∧
      s2.documents = s1.documents.map (reSync (('b') :: []))) :=
  ⟨fun _ _ h => h, by decide,
    crawl_idempotent hashFn (('a') :: []) (('b') :: []) [ceOldFile]
      (fun _ _ h => h) (by decide)⟩

lemma updRow_fields (d : Doc) (r : Row) :
    (updRow d r).source = r.source ∧ (updRow d r).source_id = r.source_id ∧
      (updRow d r).id = r.id := by
  unfold updRow
  by_cases hp : r.source = d.source ∧ r.source_id = d.source_id <;> simp [hp]

lemma upsert_local (hash : Str → Str) (hinj : Function.Injective hash)
    (s : Store) (hs : LocalShape hash s.documents) (d : Doc)
    (hd : d.source = localSrc ∧ d.id = hash d.source_id) :
    ∃ s2, upsertDocument d s = .ok s2 ∧ LocalShape hash s2.documents ∧
      (∀ p : Str, (∃ r ∈ s.documents, r.source_id = p) →
        ∃ r ∈ s2.documents, r.source_id = p) ∧
      (∃ r ∈ s2.documents, r.source_id = d.source_id) := by
  unfold upsertDocument
  cases hfind : s.documents.find?
      (fun r => decide (r.source = d.source ∧ r.source_id = d.source_id)) with
  | some r0 =>
    refine ⟨_, rfl, ?_, ?_, ?_⟩
    · intro r2 hr2
      obtain ⟨r1, hr1, heq⟩ := List.mem_map.mp hr2
      obtain ⟨hsrc, hsid, hid⟩ := updRow_fields d r1
      obtain ⟨hls, hlid⟩ := hs r1 hr1
      subst heq
      exact ⟨hsrc.trans hls, by rw [hid, hlid, hsid]⟩
    · rintro p ⟨r1, hr1, hsid⟩
      exact ⟨updRow d r1, List.mem_map.mpr ⟨r1, hr1, rfl⟩,
        (updRow_fields d r1).2.1.trans hsid⟩
    · have hp := List.find?_some hfind
      have hmem := List.mem_of_find?_eq_some hfind
      refine ⟨updRow d r0, List.mem_map.mpr ⟨r0, hmem, rfl⟩, ?_⟩
      rw [(updRow_fields d r0).2.1]
      exact (of_decide_eq_true hp).2
  | none =>
    have hany : (s.documents.any fun r => decide (r.id = d.id)) = false := by
      apply List.any_eq_false.mpr
      intro r hr
      simp only [decide_eq_true_eq]
      intro hid
      obtain ⟨hls, hlid⟩ := hs r hr
      have hsid : r.source_id = d.source_id := by
        apply hinj
        rw [← hlid, ← hd.2]
        exact hid
      have := List.find?_eq_none.mp hfind r hr
      simp only [decide_eq_true_eq] at this
      exact this ⟨hls.trans hd.1.symm, hsid⟩
    simp only [hany, Bool.false_eq_true, if_false]
    refine ⟨_, rfl, ?_, ?_, ?_⟩
    · intro r2 hr2
      rcases List.mem_append.mp hr2 with hr2 | hr2
      · exact hs r2 hr2
      · simp only [List.mem_singleton] at hr2
        subst hr2
        exact ⟨hd.1, hd.2⟩
    · rintro p ⟨r1, hr1, hsid⟩
      exact ⟨r1, List.mem_append.mpr (Or.inl hr1), hsid⟩
    · exact ⟨_, List.mem_append.mpr (Or.inr (List.mem_singleton.mpr rfl)), rfl⟩

lemma batchGo_local (hash : Str → Str) (hinj : Function.Injective hash)
    (ds : List Doc) :
    ∀ s : Store, LocalShape hash s.documents →
    (∀ d ∈ ds, d.source = localSrc ∧ d.id = hash d.source_id) →
    ∃ s2, batchGo ds s = .ok s2 ∧ LocalShape hash s2.documents ∧
      (∀ p : Str, (∃ r ∈ s.documents, r.source_id = p) →
        ∃ r ∈ s2.documents, r.source_id = p) ∧
      (∀ d ∈ ds, ∃ r ∈ s2.documents, r.source_id = d.source_id) := by
  induction ds with
  | nil =>
    intro s hs _
    exact ⟨s, rfl, hs, fun p hp => hp, by intro d hd; cases hd⟩
  | cons d ds ih =>
    intro s hs hds
    obtain ⟨s1, hup, hs1, hpres1, hnew1⟩ :=
      upsert_local hash hinj s hs d (hds d (List.mem_cons_self d ds))
    obtain ⟨s2, hgo, hs2, hpres2, hnew2⟩ :=
      ih s1 hs1 (fun d2 hd2 => hds d2 (List.mem_cons_of_mem d hd2))
    refine ⟨s2, ?_, hs2, fun p hp => hpres2 p (hpres1 p hp), ?_⟩
    · simp only [batchGo]
      rw [hup]
      exact hgo
    · intro d2 hd2
      rcases List.mem_cons.mp hd2 with heq | hd2
      · subst heq
        exact hpres2 d2.source_id hnew1
      · exact hnew2 d2 hd2

lemma length_filterMap_processFile (hash : Str → Str) (now : Str)
    (files : List FileEntry) :
    (files.filterMap (processFile hash now)).length =
      files.countP (fun f => f.text.isSome) := by
  induction files with
  | nil => rfl
  | cons f fs ih =>
    cases htext : f.text with
    | none =>
      simp [List.filterMap_cons, processFile, htext, List.countP_cons, ih]
    | some raw =>
      simp [List.filterMap_cons, processFile, htext, List.countP_cons, ih]

/-- Claim C7: a per-file extraction failure never aborts the crawl — the
run still succeeds, returns the count of the files whose extraction
succeeded, and every successfully extracted file's document is committed
(its path is present as a source_id in the final store). -/
theorem crawl_skips_failures (hash : Str → Str) (now : Str)
    (files : List FileEntry) (hinj : Function.Injective hash) :
    ∃ s2, indexAll hash now files initStore =
        .ok (files.countP (fun f => f.text.isSome), s2) ∧
      ∀ f ∈ files, f.text.isSome →
        ∃ r ∈ s2.documents, r.source_id = f.path := by
  obtain ⟨s2, hgo, _, _, hnew⟩ := batchGo_local hash hinj
    (files.filterMap (processFile hash now)) initStore
    (by intro r hr; cases hr)
    (by intro d hd; exact mem_docs_fields hash now files hd)
  refine ⟨s2, ?_, ?_⟩
  · show Except.map
      (fun next => ((files.filterMap (processFile hash now)).length, next))
      (batchGo (files.filterMap (processFile hash now)) initStore) = _
    rw [hgo, length_filterMap_processFile]
    rfl
  · intro f hf hsome
    obtain ⟨raw, hraw⟩ := Option.isSome_iff_exists.mp hsome
    obtain ⟨d, hd, hsid⟩ := docs_for_file hash now files f hf raw hraw
    obtain ⟨r, hr, hrs⟩ := hnew d hd
    exact ⟨r, hr, by rw [hrs, hsid]⟩

/-- Claim C7 witness: a crawl over a tree holding one failing file and one
good file still succeeds, counts only the good file, and commits it. -/
theorem crawl_skips_failures_witness :
    Function.Injective hashFn ∧
    (∃ s2, indexAll hashFn [] [ceBadFile, ceOldFile] initStore =
        .ok ([ceBadFile, ceOldFile].countP (fun f => f.text.isSome), s2) ∧
      ∀ f ∈ [ceBadFile, ceOldFile], f.text.isSome →
        ∃ r ∈ s2.documents, r.source_id = f.path) :=
  ⟨fun _ _ h => h,
    crawl_skips_failures hashFn [] [ceBadFile, ceOldFile] (fun _ _ h => h)⟩

/-- Claim C6 counterexample: index a file, rename it (the old path gone,
the new path present with the same text), and run a full crawl again — the
store afterwards still holds a document under the old source_id alongside
the new one, contradicting the claim that the re-crawl leaves none under
the old path. -/
theorem rename_recrawl_cex :
    ((okOf (indexAll hashFn [] [ceOldFile] initStore)).bind (fun p =>
      (okOf (indexAll hashFn [] [ceNewFile] p.2)).map
        (fun q => q.2.documents.map (fun r => r.source_id)))) =
      some [("old.txt").data, ("new.txt").data] := by decide

lemma indexAll_single (hash : Str → Str) (now p raw bt mt : Str) (sz : Nat)
    (rows : List Row) (nr : Nat)
    (hkey : ∀ r ∈ rows, ¬ (r.source = localSrc ∧ r.source_id = p))
    (hid : ∀ r ∈ rows, r.id ≠ hash p) :
    indexAll hash now [⟨p, some raw, sz, bt, mt⟩] (mkStore rows nr) =
      .ok (1, mkStore (rows ++ [mkRow nr ⟨hash p, localSrc, p,
        extractTitle p raw, truncateContent raw, ⟨p, sz, bt, mt⟩, now⟩])
        (nr + 1)) := by
  show Except.map _
    (batchGo ([⟨p, some raw, sz, bt, mt⟩].filterMap (processFile hash now))
      (mkStore rows nr)) = _
  have hdocs : [(⟨p, some raw, sz, bt, mt⟩ : FileEntry)].filterMap
      (processFile hash now) = [⟨hash p, localSrc, p, extractTitle p raw,
        truncateContent raw, ⟨p, sz, bt, mt⟩, now⟩] := by
    simp [processFile]
  rw [hdocs]
  show Except.map _ (batchGo _ (mkStore rows nr)) = _
  simp only [batchGo]
  rw [upsert_fresh hkey hid]
  rfl

/-- Claim C6 (amended): after a rename and a re-crawl of the renamed tree,
the store holds exactly one document under the new source_id and still
exactly one under the old source_id — indexAll performs no deletions, so
the old record persists; only the watcher's unlink event for the old path
(hash the path, delete that id) removes it, after which exactly one
document remains under the new path and none under the old. -/
theorem rename_recrawl (hash : Str → Str)
    (t1 t2 oldP newP raw1 raw2 bt1 mt1 bt2 mt2 : Str) (sz1 sz2 : Nat)
    (hinj : Function.Injective hash) (hne : oldP ≠ newP) :
    ∃ s1 s2,
      indexAll hash t1 [⟨oldP, some raw1, sz1, bt1, mt1⟩] initStore =
        .ok (1, s1) ∧
      indexAll hash t2 [⟨newP, some raw2, sz2, bt2, mt2⟩] s1 = .ok (1, s2) ∧
      (s2.documents.filter (fun r => decide (r.source_id = newP))).length = 1 ∧
      (s2.documents.filter (fun r => decide (r.source_id = oldP))).length = 1 ∧
      ((unlinkEvent hash oldP s2).documents.filter
        (fun r => decide (r.source_id = newP))).length = 1 ∧
      ((unlinkEvent hash oldP s2).documents.filter
        (fun r => decide (r.source_id = oldP))).length = 0 := by
  have hne2 : newP ≠ oldP := Ne.symm hne
  have hidne : hash newP ≠ hash oldP := fun h => hne2 (hinj h)
  have h1 := indexAll_single hash t1 oldP raw1 bt1 mt1 sz1 [] 0
    (by intro r hr; cases hr) (by intro r hr; cases hr)
  rw [List.nil_append] at h1
  have h2 := indexAll_single hash t2 newP raw2 bt2 mt2 sz2
    [mkRow 0 ⟨hash oldP, localSrc, oldP, extractTitle oldP raw1,
      truncateContent raw1, ⟨oldP, sz1, bt1, mt1⟩, t1⟩] 1
    (by
      intro r hr
      simp only [List.mem_singleton] at hr
      subst hr
      rintro ⟨_, hsid⟩
      exact hne hsid)
    (by
      intro r hr
      simp only [List.mem_singleton] at hr
      subst hr
      show hash oldP ≠ hash newP
      exact fun h => hne (hinj h))
  refine ⟨_, _, h1, h2, ?_, ?_, ?_, ?_⟩
  · simp [mkStore, mkRow, List.filter_cons, hne, hne2]
  · simp [mkStore, mkRow, List.filter_cons, hne, hne2]
  · simp [unlinkEvent, deleteDocument, mkStore, mkRow, List.filter_cons,
      hne, hne2, hidne]
  · simp [unlinkEvent, deleteDocument, mkStore, mkRow, List.filter_cons,
      hne, hne2, hidne]

/-- Claim C6 witness: the amended rename behavior at a concrete pair of
paths with the identity stand-in for the path hash. -/
theorem rename_recrawl_witness :
    Function.Injective hashFn ∧ ("a").data ≠ ("b").data ∧
    (∃ s1 s2,
      indexAll hashFn [] [⟨("a").data, some [], 0, [], []⟩] initStore =
        .ok (1, s1) ∧
      indexAll hashFn [] [⟨("b").data, some [], 0, [], []⟩] s1 =
        .ok (1, s2) ∧
      (s2.documents.filter
        (fun r => decide (r.source_id = ("b").data))).length = 1 ∧
      (s2.documents.filter
        (fun r => decide (r.source_id = ("a").data))).length = 1 ∧
      ((unlinkEvent hashFn (("a").data) s2).documents.filter
        (fun r => decide (r.source_id = ("b").data))).length = 1 ∧
      ((unlinkEvent hashFn (("a").data) s2).documents.filter
        (fun r => decide (r.source_id = ("a").data))).length = 0) :=
  ⟨fun _ _ h => h, by decide,
    rename_recrawl hashFn [] [] (("a").data) (("b").data) [] [] [] [] [] []
      0 0 (fun _ _ h => h) (by decide)⟩

end PK
